import Mathlib

/-!
Verification of the pairs-trading core: the scalar Kalman filter of
`src/kalman_filters.py` and the backtesting state machine of
`src/backtesting.py`, shallowly embedded over exact rationals.
-/

set_option maxHeartbeats 1000000

namespace PairsTrading

/-! ## Kalman filter (`src/kalman_filters.py`) -/

/-- State of `KalmanFilter`: the constructor `__init__` stores the four
parameters `F H Q R` and the running estimate `x` and covariance `P`. -/
structure KF where
  F : ℚ
  H : ℚ
  Q : ℚ
  R : ℚ
  x : ℚ
  P : ℚ
  deriving Repr, DecidableEq

/-- `KalmanFilter.__init__(F=1, H=1, Q=1e-5, R=1e-2, x0=0, P0=1)`.
It performs no validation of the parameters: construction always succeeds. -/
def KF.init (F : ℚ := 1) (H : ℚ := 1) (Q : ℚ := 1/100000) (R : ℚ := 1/100)
    (x0 : ℚ := 0) (P0 : ℚ := 1) : KF :=
  ⟨F, H, Q, R, x0, P0⟩

/-- The denominator `self.H * P_pred * self.H + self.R` of the Kalman gain,
with `P_pred = self.F * self.P * self.F + self.Q`. -/
def KF.gainDenom (kf : KF) : ℚ :=
  kf.H * (kf.F * kf.P * kf.F + kf.Q) * kf.H + kf.R

/-- The arithmetic of `KalmanFilter.update(z)`: prediction, gain, correction.
Returns the filter with its mutated `x` and `P` fields together with the
gain `K` (the method returns the triple `(self.x, self.P, K)`). -/
def KF.updateCore (kf : KF) (z : ℚ) : KF × ℚ :=
  let x_pred := kf.F * kf.x
  let P_pred := kf.F * kf.P * kf.F + kf.Q
  let K := P_pred * kf.H / (kf.H * P_pred * kf.H + kf.R)
  ({ kf with x := x_pred + K * (z - kf.H * x_pred),
             P := (1 - K * kf.H) * P_pred }, K)

/-- `KalmanFilter.update(z)`. Python raises `ZeroDivisionError` when the gain
denominator is exactly zero, modelled as `none`; otherwise the step succeeds. -/
def KF.update (kf : KF) (z : ℚ) : Option (KF × ℚ) :=
  if kf.gainDenom = 0 then none else some (kf.updateCore z)

/-- Iterated filter under a constant observation `c`, starting from `kf`
(mirrors calling `update(c)` repeatedly on one `KalmanFilter` instance). -/
def KF.constRun (kf : KF) (c : ℚ) : ℕ → KF
  | 0 => kf
  | n + 1 => ((kf.constRun c n).updateCore c).1

/-- The loop body of `kalman_hedge_ratio`: for each row `(price_V, price_AXP)`
form `z = price_V / (price_AXP + 1e-8)`, run `kf.update(z)` and record the
returned estimate `beta[t]`. An exception in `update` aborts the whole run. -/
def hedgeRun (kf : KF) : List (ℚ × ℚ) → Option (List ℚ)
  | [] => some []
  | p :: rest =>
    match kf.update (p.1 / (p.2 + 1/100000000)) with
    | none => none
    | some (kf1, _) => (hedgeRun kf1 rest).map (fun bs => kf1.x :: bs)

/-- `kalman_hedge_ratio(df)`: runs `KalmanFilter(Q=1e-5, R=1e-2, x0=1, P0=1)`
over the rows of the frame, producing the `hedge_ratio` column. -/
def kalman_hedge_ratio (df : List (ℚ × ℚ)) : Option (List ℚ) :=
  hedgeRun (KF.init 1 1 (1/100000) (1/100) 1 1) df

/-! ## Backtest engine (`src/backtesting.py`) -/

/-- One row of the input frame: the three signal columns compared to `1`
by the engine, and the `spread` column. -/
structure Bar where
  long_signal : Bool
  short_signal : Bool
  exit_signal : Bool
  spread : ℚ
  deriving Repr, DecidableEq

/-- The loop-carried state of `backtest`: `cash`, `position` (0 flat, 1 long,
-1 short) and the local variable `entry_price`, which is unbound (`none`)
until the first entry assigns it and is never deleted afterwards. -/
structure BTState where
  cash : ℚ
  position : ℤ
  entry_price : Option ℚ
  deriving Repr, DecidableEq

/-- The `if/elif` signal chain of one loop iteration of `backtest` (lines
40-54): long entry, else short entry, else exit.  Reading `entry_price`
before any assignment would raise `NameError` in Python; that branch is
unreachable from the initial state (position ≠ 0 only after an entry), and
is modelled with `Option.getD 0`. -/
def applySignals (commission : ℚ) (s : BTState) (b : Bar) : BTState :=
  if b.long_signal = true ∧ s.position = 0 then
    { cash := s.cash - commission * s.cash, position := 1,
      entry_price := some b.spread }
  else if b.short_signal = true ∧ s.position = 0 then
    { cash := s.cash - commission * s.cash, position := -1,
      entry_price := some b.spread }
  else if b.exit_signal = true ∧ s.position ≠ 0 then
    let pnl := (s.position : ℚ) * (s.entry_price.getD 0 - b.spread)
    let cash1 := s.cash + pnl
    { cash := cash1 - commission * cash1, position := 0,
      entry_price := s.entry_price }
  else s

/-- The borrow-fee tail of the iteration (lines 57-58): if the position is
short after the signal chain, deduct `borrow_rate * cash / 252`. -/
def applyBorrowFee (borrow_rate : ℚ) (s : BTState) : BTState :=
  if s.position = -1 then
    { s with cash := s.cash - borrow_rate * s.cash / 252 }
  else s

/-- One full iteration of the `for i in range(len(df))` loop. -/
def stepBar (commission borrow_rate : ℚ) (s : BTState) (b : Bar) : BTState :=
  applyBorrowFee borrow_rate (applySignals commission s b)

/-- The loop of `backtest`: threads the state through the bars and appends
`cash` to `portfolio` after every bar; returns the final state and the
`portfolio` list. -/
def runBT (commission borrow_rate : ℚ) (s : BTState) :
    List Bar → BTState × List ℚ
  | [] => (s, [])
  | b :: rest =>
    let s1 := stepBar commission borrow_rate s b
    let r := runBT commission borrow_rate s1 rest
    (r.1, s1.cash :: r.2)

/-- `backtest(df, initial_cash, commission, borrow_rate)`: the
`portfolio_value` column it produces. -/
def backtest (bars : List Bar) (initial_cash : ℚ := 1000000)
    (commission : ℚ := 125/100000) (borrow_rate : ℚ := 25/10000) : List ℚ :=
  (runBT commission borrow_rate ⟨initial_cash, 0, none⟩ bars).2

/-- Final state of a `backtest` run from the initial state. -/
def backtestFinal (bars : List Bar) (initial_cash : ℚ)
    (commission : ℚ) (borrow_rate : ℚ) : BTState :=
  (runBT commission borrow_rate ⟨initial_cash, 0, none⟩ bars).1

end PairsTrading

namespace PairsTrading

/-! ## Helper lemmas -/

/-- The default-constructed filter of `kalman_hedge_ratio`-style use. -/
def kfDefault : KF := ⟨1, 1, 1/100000, 1/100, 0, 1⟩

lemma update_of_denom_ne (kf : KF) (z : ℚ) (h : kf.gainDenom ≠ 0) :
    kf.update z = some (kf.updateCore z) := by
  simp [KF.update, h]

lemma stepBar_no_signal (c br : ℚ) (s : BTState) (b : Bar)
    (hp : s.position = 0) (hl : b.long_signal = false)
    (hs : b.short_signal = false) (he : b.exit_signal = false) :
    stepBar c br s b = s := by
  simp [stepBar, applySignals, applyBorrowFee, hl, hs, he, hp]

lemma runBT_no_signal (c br : ℚ) (bars : List Bar) :
    ∀ s : BTState, s.position = 0 →
    (∀ b ∈ bars,
      b.long_signal = false ∧ b.short_signal = false ∧ b.exit_signal = false) →
    runBT c br s bars = (s, List.replicate bars.length s.cash) := by
  induction bars with
  | nil => intro s _ _; simp [runBT]
  | cons b rest ih =>
    intro s hs hb
    obtain ⟨hl, hsg, he⟩ := hb b (List.mem_cons_self _ _)
    have hstep : stepBar c br s b = s := stepBar_no_signal c br s b hs hl hsg he
    simp [runBT, hstep, ih s hs (fun x hx => hb x (List.mem_cons_of_mem _ hx)),
      List.replicate_succ]

/-! ## Claims -/

/-- C1: a single filter step computes exactly `x_pred = F*x`,
`P_pred = F*P*F + Q`, `K = P_pred*H / (H*P_pred*H + R)`, returns
`x_new = x_pred + K*(z - H*x_pred)` and `P_new = (1 - K*H)*P_pred`, and the
hedge-ratio driver emits `x_new` as the estimate for the step. -/
theorem C1_filter_step_formulas (kf : KF) (z : ℚ)
    (h : kf.H * (kf.F * kf.P * kf.F + kf.Q) * kf.H + kf.R ≠ 0) :
    kf.update z = some
      ({ kf with
         x := kf.F * kf.x +
           (kf.F * kf.P * kf.F + kf.Q) * kf.H /
             (kf.H * (kf.F * kf.P * kf.F + kf.Q) * kf.H + kf.R) *
             (z - kf.H * (kf.F * kf.x)),
         P := (1 - (kf.F * kf.P * kf.F + kf.Q) * kf.H /
             (kf.H * (kf.F * kf.P * kf.F + kf.Q) * kf.H + kf.R) * kf.H) *
           (kf.F * kf.P * kf.F + kf.Q) },
       (kf.F * kf.P * kf.F + kf.Q) * kf.H /
         (kf.H * (kf.F * kf.P * kf.F + kf.Q) * kf.H + kf.R)) ∧
    (∀ (yv xv : ℚ) (rest : List (ℚ × ℚ)) (out : List ℚ),
      hedgeRun kf ((yv, xv) :: rest) = some out →
      out.head? = some ((kf.updateCore (yv / (xv + 1/100000000))).1.x)) := by
  have hd : kf.gainDenom ≠ 0 := h
  constructor
  · rw [update_of_denom_ne kf z hd]
    rfl
  · intro yv xv rest out hrun
    simp only [hedgeRun] at hrun
    rw [update_of_denom_ne kf _ hd] at hrun
    simp only [Option.map_eq_some'] at hrun
    obtain ⟨bs, _, hout⟩ := hrun
    rw [← hout]
    rfl

/-- Witness for C1 at the default filter and `z = 2`. -/
theorem C1_filter_step_formulas_witness :
    (kfDefault.H * (kfDefault.F * kfDefault.P * kfDefault.F + kfDefault.Q) *
        kfDefault.H + kfDefault.R ≠ 0) ∧
    kfDefault.update 2 = some
      ({ kfDefault with
         x := kfDefault.F * kfDefault.x +
           (kfDefault.F * kfDefault.P * kfDefault.F + kfDefault.Q) * kfDefault.H /
             (kfDefault.H * (kfDefault.F * kfDefault.P * kfDefault.F + kfDefault.Q) *
               kfDefault.H + kfDefault.R) *
             (2 - kfDefault.H * (kfDefault.F * kfDefault.x)),
         P := (1 - (kfDefault.F * kfDefault.P * kfDefault.F + kfDefault.Q) *
             kfDefault.H /
             (kfDefault.H * (kfDefault.F * kfDefault.P * kfDefault.F + kfDefault.Q) *
               kfDefault.H + kfDefault.R) * kfDefault.H) *
           (kfDefault.F * kfDefault.P * kfDefault.F + kfDefault.Q) },
       (kfDefault.F * kfDefault.P * kfDefault.F + kfDefault.Q) * kfDefault.H /
         (kfDefault.H * (kfDefault.F * kfDefault.P * kfDefault.F + kfDefault.Q) *
           kfDefault.H + kfDefault.R)) :=
  ⟨by norm_num [kfDefault],
   (C1_filter_step_formulas kfDefault 2 (by norm_num [kfDefault])).1⟩

/-- C2: if every bar has all three signals false, the portfolio-value output
is `initial_cash` at every bar, for every cash and rate configuration. -/
theorem C2_no_signal_invariant (bars : List Bar)
    (h : ∀ b ∈ bars,
      b.long_signal = false ∧ b.short_signal = false ∧ b.exit_signal = false)
    (initial_cash commission borrow_rate : ℚ) :
    backtest bars initial_cash commission borrow_rate =
      List.replicate bars.length initial_cash := by
  unfold backtest
  rw [runBT_no_signal commission borrow_rate bars ⟨initial_cash, 0, none⟩ rfl h]

/-- Witness for C2 on a concrete two-bar all-false input. -/
theorem C2_no_signal_invariant_witness :
    (∀ b ∈ [Bar.mk false false false 5, Bar.mk false false false 7],
      b.long_signal = false ∧ b.short_signal = false ∧ b.exit_signal = false) ∧
    backtest [Bar.mk false false false 5, Bar.mk false false false 7] 1000 (1/100) (1/50) =
      List.replicate 2 1000 :=
  ⟨by decide,
   C2_no_signal_invariant [Bar.mk false false false 5, Bar.mk false false false 7]
     (by decide) 1000 (1/100) (1/50)⟩

/-- C3: long entry at spread 100 on bar 0, exit at spread 100 on bar 1, zero
borrow rate: the final cash is `initial_cash * (1 - commission)^2`. -/
theorem C3_commission_round_trip (initial_cash commission : ℚ) :
    (backtestFinal [Bar.mk true false false 100, Bar.mk false false true 100]
      initial_cash commission 0).cash = initial_cash * (1 - commission)^2 := by
  simp [backtestFinal, runBT, stepBar, applySignals, applyBorrowFee]
  ring

end PairsTrading

namespace PairsTrading

lemma runBT_hold_short (c br : ℚ) (bars : List Bar) :
    ∀ (cash : ℚ) (e : Option ℚ), (∀ b ∈ bars, b.exit_signal = false) →
    (runBT c br ⟨cash, -1, e⟩ bars).1 =
      ⟨cash * (1 - br/252)^bars.length, -1, e⟩ := by
  induction bars with
  | nil => intro cash e _; simp [runBT]
  | cons b rest ih =>
    intro cash e hb
    have he := hb b (List.mem_cons_self _ _)
    have hstep : stepBar c br ⟨cash, -1, e⟩ b =
        ⟨cash - br * cash / 252, -1, e⟩ := by
      simp [stepBar, applySignals, applyBorrowFee, he]
    have htail := ih (cash - br * cash / 252) e
      (fun x hx => hb x (List.mem_cons_of_mem _ hx))
    show (runBT c br (stepBar c br ⟨cash, -1, e⟩ b) rest).1 = _
    rw [hstep, htail]
    simp only [List.length_cons, BTState.mk.injEq, pow_succ]
    exact ⟨by ring, by simp⟩

/-- C4: opening a Short at bar 0 and holding it for the rest of the bars
(exit never firing, commission zero) leaves cash equal to
`initial_cash * (1 - borrow_rate/252)^N` after the `N` bars: the borrow fee
hits every bar on which the position ends short (the entry bar included),
and `applyBorrowFee` is the identity whenever the position is not short. -/
theorem C4_short_borrow_drag (b0 : Bar) (bars : List Bar)
    (initial_cash borrow_rate : ℚ)
    (h0l : b0.long_signal = false) (h0s : b0.short_signal = true)
    (hrest : ∀ b ∈ bars, b.exit_signal = false) :
    (backtestFinal (b0 :: bars) initial_cash 0 borrow_rate).cash =
      initial_cash * (1 - borrow_rate/252)^(b0 :: bars).length ∧
    ∀ s : BTState, s.position ≠ -1 → applyBorrowFee borrow_rate s = s := by
  constructor
  · have hstep : stepBar 0 borrow_rate ⟨initial_cash, 0, none⟩ b0 =
        ⟨initial_cash - borrow_rate * initial_cash / 252, -1, some b0.spread⟩ := by
      simp [stepBar, applySignals, applyBorrowFee, h0l, h0s]
    show ((runBT 0 borrow_rate
      (stepBar 0 borrow_rate ⟨initial_cash, 0, none⟩ b0) bars).1).cash = _
    rw [hstep, runBT_hold_short 0 borrow_rate bars _ _ hrest]
    simp only [List.length_cons, pow_succ]
    ring
  · intro s hs
    simp [applyBorrowFee, hs]

/-- Witness for C4: short at bar 0, one further bar, borrow rate 126. -/
theorem C4_short_borrow_drag_witness :
    (Bar.mk false true false 100).long_signal = false ∧
    (Bar.mk false true false 100).short_signal = true ∧
    (∀ b ∈ [Bar.mk false false false 100], b.exit_signal = false) ∧
    (backtestFinal (Bar.mk false true false 100 :: [Bar.mk false false false 100])
      1000 0 126).cash =
      1000 * (1 - 126/252)^(Bar.mk false true false 100 :: [Bar.mk false false false 100]).length :=
  ⟨rfl, rfl, by decide,
   (C4_short_borrow_drag (Bar.mk false true false 100) [Bar.mk false false false 100]
     1000 126 rfl rfl (by decide)).1⟩

/-- C8: on a bar with both entry signals set while the position is flat, the
`if/elif` chain opens the Long (long is checked first), deducts one
commission, records the entry spread, and does not take the short entry. -/
theorem C8_long_priority_both_signals (commission borrow_rate : ℚ)
    (s : BTState) (b : Bar) (hp : s.position = 0)
    (hl : b.long_signal = true) (hs : b.short_signal = true) :
    stepBar commission borrow_rate s b =
      ⟨s.cash - commission * s.cash, 1, some b.spread⟩ := by
  simp [stepBar, applySignals, applyBorrowFee, hl, hp]

/-- Witness for C8 at a concrete flat state and double-signal bar. -/
theorem C8_long_priority_both_signals_witness :
    (BTState.mk 1000 0 none).position = 0 ∧
    (Bar.mk true true false 7).long_signal = true ∧
    (Bar.mk true true false 7).short_signal = true ∧
    stepBar (1/100) (1/50) (BTState.mk 1000 0 none) (Bar.mk true true false 7) =
      ⟨(1000 : ℚ) - (1/100) * 1000, 1, some 7⟩ :=
  ⟨rfl, rfl, rfl,
   C8_long_priority_both_signals (1/100) (1/50) (BTState.mk 1000 0 none)
     (Bar.mk true true false 7) rfl rfl rfl⟩

/-- C9 counterexample: after a long entry at bar 0 and an exit at bar 1 the
position is flat again, yet `entry_price` still holds the stale entry spread
(the code never clears it), so "entry_spread is defined iff position ≠ Flat"
fails. -/
theorem C9_entry_not_cleared_counterexample :
    (backtestFinal [Bar.mk true false false 100, Bar.mk false false true 100]
      1000 0 0).position = 0 ∧
    (backtestFinal [Bar.mk true false false 100, Bar.mk false false true 100]
      1000 0 0).entry_price = some 100 := by
  constructor <;> rfl

lemma applyBorrowFee_position (br : ℚ) (s : BTState) :
    (applyBorrowFee br s).position = s.position := by
  unfold applyBorrowFee; split_ifs <;> rfl

lemma applyBorrowFee_entry (br : ℚ) (s : BTState) :
    (applyBorrowFee br s).entry_price = s.entry_price := by
  unfold applyBorrowFee; split_ifs <;> rfl

lemma stepBar_entry_defined (c br : ℚ) (s : BTState) (b : Bar)
    (h : s.position ≠ 0 → s.entry_price ≠ none) :
    (stepBar c br s b).position ≠ 0 → (stepBar c br s b).entry_price ≠ none := by
  rw [stepBar, applyBorrowFee_position, applyBorrowFee_entry]
  unfold applySignals
  split_ifs <;> simp_all

lemma stepBar_entry_persists (c br : ℚ) (s : BTState) (b : Bar)
    (h : s.entry_price ≠ none) : (stepBar c br s b).entry_price ≠ none := by
  rw [stepBar, applyBorrowFee_entry]
  unfold applySignals
  split_ifs <;> simp_all

lemma runBT_entry_defined (c br : ℚ) (bars : List Bar) :
    ∀ s : BTState, (s.position ≠ 0 → s.entry_price ≠ none) →
    (runBT c br s bars).1.position ≠ 0 →
    (runBT c br s bars).1.entry_price ≠ none := by
  induction bars with
  | nil => intro s h; exact h
  | cons b rest ih =>
    intro s h
    exact ih (stepBar c br s b) (stepBar_entry_defined c br s b h)

/-- C9 amended: only one direction of the spec invariant holds.  Whenever
the position is not flat, `entry_price` is defined (from the initial state of
any run), and once defined it is never cleared — exiting leaves the stale
entry spread in place, so `entry_price` may be defined while Flat. -/
theorem C9_amended_entry_defined (bars : List Bar)
    (initial_cash commission borrow_rate : ℚ) :
    ((backtestFinal bars initial_cash commission borrow_rate).position ≠ 0 →
      (backtestFinal bars initial_cash commission borrow_rate).entry_price ≠ none) ∧
    ∀ (s : BTState) (b : Bar), s.entry_price ≠ none →
      (stepBar commission borrow_rate s b).entry_price ≠ none := by
  constructor
  · exact runBT_entry_defined commission borrow_rate bars
      ⟨initial_cash, 0, none⟩ (fun hpos => absurd rfl hpos)
  · intro s b h
    exact stepBar_entry_persists commission borrow_rate s b h

/-- Witness for C9's amended invariant on a one-bar long-entry run. -/
theorem C9_amended_entry_defined_witness :
    (backtestFinal [Bar.mk true false false 7] 1000 0 0).position ≠ 0 ∧
    (backtestFinal [Bar.mk true false false 7] 1000 0 0).entry_price ≠ none :=
  ⟨by decide,
   (C9_amended_entry_defined [Bar.mk true false false 7] 1000 0 0).1 (by decide)⟩

end PairsTrading

namespace PairsTrading

/-- Closed form of one update step when `F = H = 1`: with `S = P + Q` the
gain is `S / (S + R)`, the new estimate is `x + K(z - x)` and the new
covariance `(1 - K) S`. -/
lemma updateCore_unit (Q R x P z : ℚ) :
    (KF.mk 1 1 Q R x P).updateCore z =
      (KF.mk 1 1 Q R (x + (P + Q) / (P + Q + R) * (z - x))
        ((1 - (P + Q) / (P + Q + R)) * (P + Q)),
       (P + Q) / (P + Q + R)) := by
  unfold KF.updateCore
  simp only [Prod.mk.injEq, KF.mk.injEq]
  refine ⟨⟨trivial, trivial, trivial, trivial, by ring_nf, by ring_nf⟩, by ring_nf⟩

/-- C5 counterexample: with degenerate parameters (`Q = R = P0 = 0`) the
constructor performs no validation and succeeds, the gain denominator is
exactly zero, and the first `update` call dies with the division
(`ZeroDivisionError`, modelled as `none`) instead of an invalid-configuration
report. -/
theorem C5_no_validation_counterexample :
    KF.init 1 1 0 0 0 0 = KF.mk 1 1 0 0 0 0 ∧
    (KF.init 1 1 0 0 0 0).gainDenom = 0 ∧
    (KF.init 1 1 0 0 0 0).update 1 = none := by
  refine ⟨rfl, by norm_num [KF.init, KF.gainDenom], ?_⟩
  have h : (KF.init 1 1 0 0 0 0).gainDenom = 0 := by
    norm_num [KF.init, KF.gainDenom]
  simp [KF.update, h]

/-- C5 amended: no validation happens at initialization; whenever the gain
denominator `H*(F*P*F + Q)*H + R` is exactly zero the first update step
raises the division error itself (modelled as `none`), for every state and
observation. -/
theorem C5_amended_divide_by_zero (kf : KF) (z : ℚ)
    (h : kf.H * (kf.F * kf.P * kf.F + kf.Q) * kf.H + kf.R = 0) :
    kf.update z = none := by
  have hd : kf.gainDenom = 0 := h
  simp [KF.update, hd]

/-- Witness for C5's amended claim at the degenerate parameters. -/
theorem C5_amended_divide_by_zero_witness :
    ((KF.mk 1 1 0 0 0 0).H *
      ((KF.mk 1 1 0 0 0 0).F * (KF.mk 1 1 0 0 0 0).P * (KF.mk 1 1 0 0 0 0).F +
        (KF.mk 1 1 0 0 0 0).Q) * (KF.mk 1 1 0 0 0 0).H +
      (KF.mk 1 1 0 0 0 0).R = 0) ∧
    (KF.mk 1 1 0 0 0 0).update 1 = none :=
  ⟨by norm_num, C5_amended_divide_by_zero (KF.mk 1 1 0 0 0 0) 1 (by norm_num)⟩

lemma constRun_P_pos (Q R x P c : ℚ) (hQ : 0 < Q) (hR : 0 < R) (hP : 0 < P) :
    ∀ n : ℕ, ∃ xn Pn, (KF.mk 1 1 Q R x P).constRun c n = KF.mk 1 1 Q R xn Pn ∧
      0 < Pn := by
  intro n
  induction n with
  | zero => exact ⟨x, P, rfl, hP⟩
  | succ n ih =>
    obtain ⟨xn, Pn, heq, hPn⟩ := ih
    refine ⟨xn + (Pn + Q) / (Pn + Q + R) * (c - xn),
      (1 - (Pn + Q) / (Pn + Q + R)) * (Pn + Q), ?_, ?_⟩
    · show (((KF.mk 1 1 Q R x P).constRun c n).updateCore c).1 = _
      rw [heq, updateCore_unit]
    · have h1 : (1 : ℚ) - (Pn + Q) / (Pn + Q + R) = R / (Pn + Q + R) := by
        field_simp
      rw [h1]
      exact mul_pos (div_pos hR (by linarith)) (by linarith)

/-- C10: with `F = H = 1`, `Q > 0`, `R > 0` and prior covariance `P > 0`, one
step yields covariance `(P+Q)·R/(P+Q+R) > 0` and a gain strictly between 0
and 1, and every iterate keeps the covariance strictly positive. -/
theorem C10_gain_covariance_positive (Q R x P z c : ℚ)
    (hQ : 0 < Q) (hR : 0 < R) (hP : 0 < P) :
    (((KF.mk 1 1 Q R x P).updateCore z).1).P = (P + Q) * R / (P + Q + R) ∧
    0 < (((KF.mk 1 1 Q R x P).updateCore z).1).P ∧
    0 < ((KF.mk 1 1 Q R x P).updateCore z).2 ∧
    ((KF.mk 1 1 Q R x P).updateCore z).2 < 1 ∧
    ∀ n : ℕ, 0 < ((KF.mk 1 1 Q R x P).constRun c n).P := by
  have hS : (0 : ℚ) < P + Q := by linarith
  have hD : (0 : ℚ) < P + Q + R := by linarith
  have hPeq : (((KF.mk 1 1 Q R x P).updateCore z).1).P =
      (P + Q) * R / (P + Q + R) := by
    rw [updateCore_unit]
    field_simp
    ring
  refine ⟨hPeq, ?_, ?_, ?_, ?_⟩
  · rw [hPeq]; exact div_pos (mul_pos hS hR) hD
  · rw [updateCore_unit]; exact div_pos hS hD
  · rw [updateCore_unit]
    exact (div_lt_one hD).mpr (by linarith)
  · intro n
    obtain ⟨xn, Pn, heq, hPn⟩ := constRun_P_pos Q R x P c hQ hR hP n
    rw [heq]
    exact hPn

/-- Witness for C10 at `Q = R = P = 1`. -/
theorem C10_gain_covariance_positive_witness :
    (0 : ℚ) < 1 ∧ (0 : ℚ) < 1 ∧ (0 : ℚ) < 1 ∧
    0 < (((KF.mk 1 1 1 1 0 1).updateCore 0).1).P :=
  ⟨by norm_num, by norm_num, by norm_num,
   (C10_gain_covariance_positive 1 1 0 1 0 0 (by norm_num) (by norm_num)
     (by norm_num)).2.1⟩

end PairsTrading

namespace PairsTrading

/-- C6 counterexample: with the code's default noise parameters and the
initial state `(x, P) = (0, 0)` under the constant stream `c = 0`, the
covariance strictly increases on the first step, refuting "the covariance
sequence is non-increasing for every initial state"; the step itself is a
genuine successful `update` call. -/
theorem C6_covariance_increase_counterexample :
    ((KF.mk 1 1 (1/100000) (1/100) 0 0).constRun 0 0).P <
      ((KF.mk 1 1 (1/100000) (1/100) 0 0).constRun 0 1).P ∧
    (KF.mk 1 1 (1/100000) (1/100) 0 0).update 0 =
      some ((KF.mk 1 1 (1/100000) (1/100) 0 0).updateCore 0) := by
  constructor
  · have h : (KF.mk 1 1 (1/100000) (1/100) 0 0).constRun 0 1 =
        ((KF.mk 1 1 (1/100000) (1/100) 0 0).updateCore 0).1 := rfl
    rw [h, updateCore_unit]
    norm_num [KF.constRun]
  · apply update_of_denom_ne
    norm_num [KF.gainDenom]

lemma constRun_invariant (Q R x0 P0 c : ℚ) (hQ : 0 < Q) (hR : 0 < R)
    (hP0 : 0 ≤ P0) (hinv : Q * R ≤ P0 * (P0 + Q)) :
    ∀ t : ℕ, ∃ xt Pt,
      (KF.mk 1 1 Q R x0 P0).constRun c t = KF.mk 1 1 Q R xt Pt ∧
      0 ≤ Pt ∧ Q * R ≤ Pt * (Pt + Q) := by
  intro t
  induction t with
  | zero => exact ⟨x0, P0, rfl, hP0, hinv⟩
  | succ t ih =>
    obtain ⟨xt, Pt, heq, h1, h2⟩ := ih
    have hD : (0:ℚ) < Pt + Q + R := by linarith
    have hP' : (1 - (Pt + Q) / (Pt + Q + R)) * (Pt + Q) =
        (Pt + Q) * R / (Pt + Q + R) := by
      field_simp
      ring
    refine ⟨xt + (Pt + Q) / (Pt + Q + R) * (c - xt),
      (1 - (Pt + Q) / (Pt + Q + R)) * (Pt + Q), ?_, ?_, ?_⟩
    · show (((KF.mk 1 1 Q R x0 P0).constRun c t).updateCore c).1 = _
      rw [heq, updateCore_unit]
    · rw [hP']
      exact div_nonneg (mul_nonneg (by linarith) hR.le) hD.le
    · rw [hP']
      have hkey : (Pt + Q) * R / (Pt + Q + R) *
          ((Pt + Q) * R / (Pt + Q + R) + Q) - Q * R =
          R^2 * (Pt * (Pt + Q) - Q * R) / (Pt + Q + R)^2 := by
        field_simp
        ring
      have hnn : 0 ≤ R^2 * (Pt * (Pt + Q) - Q * R) / (Pt + Q + R)^2 :=
        div_nonneg (mul_nonneg (sq_nonneg R) (by linarith)) (by positivity)
      linarith [hkey, hnn]

/-- C6 amended: for `F = H = 1`, strictly positive noise parameters and an
initial covariance `P0 ≥ 0` with `Q·R ≤ P0·(P0 + Q)` (the code's defaults
`Q = 1e-5`, `R = 1e-2`, `P0 = 1` satisfy this), a constant observation
stream keeps `|x_t − c|` non-increasing and the covariance non-increasing,
and every step is a successful `update` call. -/
theorem C6_amended_monotone (Q R x0 P0 c : ℚ) (hQ : 0 < Q) (hR : 0 < R)
    (hP0 : 0 ≤ P0) (hinv : Q * R ≤ P0 * (P0 + Q)) (t : ℕ) :
    |((KF.mk 1 1 Q R x0 P0).constRun c (t+1)).x - c| ≤
      |((KF.mk 1 1 Q R x0 P0).constRun c t).x - c| ∧
    ((KF.mk 1 1 Q R x0 P0).constRun c (t+1)).P ≤
      ((KF.mk 1 1 Q R x0 P0).constRun c t).P ∧
    ((KF.mk 1 1 Q R x0 P0).constRun c t).update c =
      some (((KF.mk 1 1 Q R x0 P0).constRun c t).updateCore c) := by
  obtain ⟨xt, Pt, heq, h1, h2⟩ := constRun_invariant Q R x0 P0 c hQ hR hP0 hinv t
  have hD : (0:ℚ) < Pt + Q + R := by linarith
  have hsucc : (KF.mk 1 1 Q R x0 P0).constRun c (t+1) =
      ((KF.mk 1 1 Q R xt Pt).updateCore c).1 := by
    show (((KF.mk 1 1 Q R x0 P0).constRun c t).updateCore c).1 = _
    rw [heq]
  refine ⟨?_, ?_, ?_⟩
  · rw [hsucc, heq, updateCore_unit]
    have hrw : xt + (Pt + Q) / (Pt + Q + R) * (c - xt) - c =
        (1 - (Pt + Q) / (Pt + Q + R)) * (xt - c) := by ring
    show |xt + (Pt + Q) / (Pt + Q + R) * (c - xt) - c| ≤ |xt - c|
    rw [hrw, abs_mul]
    have h1K : (1:ℚ) - (Pt + Q) / (Pt + Q + R) = R / (Pt + Q + R) := by
      field_simp
    have habs : |1 - (Pt + Q) / (Pt + Q + R)| ≤ 1 := by
      rw [h1K, abs_of_nonneg (div_nonneg hR.le hD.le)]
      exact (div_le_one hD).mpr (by linarith)
    exact mul_le_of_le_one_left (abs_nonneg _) habs
  · rw [hsucc, heq, updateCore_unit]
    show (1 - (Pt + Q) / (Pt + Q + R)) * (Pt + Q) ≤ Pt
    have hsub : (1 - (Pt + Q) / (Pt + Q + R)) * (Pt + Q) - Pt =
        (Q * R - Pt * (Pt + Q)) / (Pt + Q + R) := by
      field_simp
      ring
    have hle : (Q * R - Pt * (Pt + Q)) / (Pt + Q + R) ≤ 0 := by
      apply div_nonpos_of_nonpos_of_nonneg (by linarith) hD.le
    linarith [hsub, hle]
  · rw [heq]
    apply update_of_denom_ne
    have hgd : (KF.mk 1 1 Q R xt Pt).gainDenom = Pt + Q + R := by
      simp [KF.gainDenom]
    rw [hgd]
    exact hD.ne'

/-- Witness for C6's amended claim at the code's default parameters. -/
theorem C6_amended_monotone_witness :
    ((0:ℚ) < 1/100000) ∧ ((0:ℚ) < 1/100) ∧ ((0:ℚ) ≤ 1) ∧
    ((1:ℚ)/100000 * (1/100) ≤ 1 * (1 + 1/100000)) ∧
    ((KF.mk 1 1 (1/100000) (1/100) 5 1).constRun 3 1).P ≤
      ((KF.mk 1 1 (1/100000) (1/100) 5 1).constRun 3 0).P :=
  ⟨by norm_num, by norm_num, by norm_num, by norm_num,
   (C6_amended_monotone (1/100000) (1/100) 5 1 3 (by norm_num) (by norm_num)
     (by norm_num) (by norm_num) 0).2.1⟩

end PairsTrading

namespace PairsTrading

lemma hedgeRun_causal (t : ℕ) :
    ∀ (kf : KF) (l1 l2 : List (ℚ × ℚ)) (out1 out2 : List ℚ),
    l1.take (t+1) = l2.take (t+1) →
    hedgeRun kf l1 = some out1 → hedgeRun kf l2 = some out2 →
    out1.get? t = out2.get? t := by
  induction t with
  | zero =>
    intro kf l1 l2 out1 out2 htake h1 h2
    cases l1 with
    | nil =>
      cases l2 with
      | nil =>
        simp only [hedgeRun, Option.some.injEq] at h1 h2
        subst h1; subst h2; rfl
      | cons b l2t => simp at htake
    | cons a l1t =>
      cases l2 with
      | nil => simp at htake
      | cons b l2t =>
        have hab : a = b := by simpa using htake
        subst hab
        simp only [hedgeRun] at h1 h2
        cases hu : kf.update (a.1 / (a.2 + 1/100000000)) with
        | none => rw [hu] at h1; simp at h1
        | some pr =>
          obtain ⟨kf1, K⟩ := pr
          rw [hu] at h1 h2
          simp only [Option.map_eq_some'] at h1 h2
          obtain ⟨bs1, _, hcons1⟩ := h1
          obtain ⟨bs2, _, hcons2⟩ := h2
          rw [← hcons1, ← hcons2]
          rfl
  | succ t ih =>
    intro kf l1 l2 out1 out2 htake h1 h2
    cases l1 with
    | nil =>
      cases l2 with
      | nil =>
        simp only [hedgeRun, Option.some.injEq] at h1 h2
        subst h1; subst h2; rfl
      | cons b l2t => simp at htake
    | cons a l1t =>
      cases l2 with
      | nil => simp at htake
      | cons b l2t =>
        rw [List.take_succ_cons, List.take_succ_cons] at htake
        injection htake with hab htake2
        subst hab
        simp only [hedgeRun] at h1 h2
        cases hu : kf.update (a.1 / (a.2 + 1/100000000)) with
        | none => rw [hu] at h1; simp at h1
        | some pr =>
          obtain ⟨kf1, K⟩ := pr
          rw [hu] at h1 h2
          simp only [Option.map_eq_some'] at h1 h2
          obtain ⟨bs1, hbs1, hcons1⟩ := h1
          obtain ⟨bs2, hbs2, hcons2⟩ := h2
          rw [← hcons1, ← hcons2]
          simpa using ih kf1 l1t l2t bs1 bs2 htake2 hbs1 hbs2

/-- C7: the hedge-ratio estimator is causal: if two observation sequences
agree on all rows up to and including index `t`, the emitted estimate at
index `t` is the same; later rows never influence it. -/
theorem C7_estimator_causality (df1 df2 : List (ℚ × ℚ)) (t : ℕ)
    (out1 out2 : List ℚ)
    (hpre : df1.take (t+1) = df2.take (t+1))
    (h1 : kalman_hedge_ratio df1 = some out1)
    (h2 : kalman_hedge_ratio df2 = some out2) :
    out1.get? t = out2.get? t :=
  hedgeRun_causal t (KF.init 1 1 (1/100000) (1/100) 1 1) df1 df2 out1 out2
    hpre h1 h2

/-- Witness for C7 on a one-row frame whose observation evaluates to `1`. -/
theorem C7_estimator_causality_witness :
    ([((1:ℚ), (99999999:ℚ)/100000000)].take 1 =
      [((1:ℚ), (99999999:ℚ)/100000000)].take 1) ∧
    kalman_hedge_ratio [((1:ℚ), (99999999:ℚ)/100000000)] = some [1] ∧
    ([(1:ℚ)].get? 0 = [(1:ℚ)].get? 0) :=
  ⟨rfl,
   by norm_num [kalman_hedge_ratio, hedgeRun, KF.init, KF.update, KF.gainDenom,
     KF.updateCore],
   C7_estimator_causality [((1:ℚ), (99999999:ℚ)/100000000)]
     [((1:ℚ), (99999999:ℚ)/100000000)] 0 [1] [1] rfl
     (by norm_num [kalman_hedge_ratio, hedgeRun, KF.init, KF.update,
       KF.gainDenom, KF.updateCore])
     (by norm_num [kalman_hedge_ratio, hedgeRun, KF.init, KF.update,
       KF.gainDenom, KF.updateCore])⟩

end PairsTrading
